import Mathlib

/-!
Verification of the herald release decision engine.

Shallow embedding of the Go sources of the herald repository:
`internal/version` (version.go), `internal/commits` (commits.go),
`internal/changelog` (changelog.go) and the configuration model of
`internal/config` (config.go), together with the relevant behaviour of the
`golang.org/x/mod/semver` library that `ParseVersion` delegates to.

Strings are modelled as `List Char`; Go byte-level operations on the ASCII
strings involved coincide with the character-level functions used here.
Go `int` values appearing in the engine are modelled as `Nat` (version
components, which are parsed non-negative and only incremented) or `Int`
(the prerelease iteration counter, which is compared with 0).
-/

namespace Herald

/-! ## Generic string helpers (models of the Go `strings` package) -/

/-- Model of `strings.Contains(s, sub)`: `sub` occurs as a contiguous
substring of `s`. -/
def containsSub (s sub : List Char) : Bool :=
  match s with
  | [] => sub.isEmpty
  | _ :: rest => sub.isPrefixOf s || containsSub rest sub

/-- Model of `strings.Split(s, sep)` for a one-character separator `sep`:
the list of (possibly empty) chunks of `s` between occurrences of `sep`.
`strings.Split` never returns an empty slice, and neither does this. -/
def splitOnChar (sep : Char) (s : List Char) : List (List Char) :=
  match s with
  | [] => [[]]
  | c :: rest =>
    match splitOnChar sep rest with
    | [] => [[]]
    | h :: t => if c = sep then [] :: h :: t else (c :: h) :: t

/-- Model of `strings.Join(parts, "\n")`. -/
def joinLines (ls : List (List Char)) : List Char :=
  match ls with
  | [] => []
  | [l] => l
  | l :: rest => l ++ '\n' :: joinLines rest

/-- The whitespace characters recognised by `strings.TrimSpace` on the ASCII
inputs the engine manipulates (`unicode.IsSpace` restricted to ASCII). -/
def isSpaceC (c : Char) : Bool :=
  c = ' ' || c = '\t' || c = '\n' || c = '\x0b' || c = '\x0c' || c = '\r'

/-- Model of `strings.TrimSpace` for ASCII text. -/
def trimSpace (s : List Char) : List Char :=
  ((s.dropWhile isSpaceC).reverse.dropWhile isSpaceC).reverse

/-- The text after the first occurrence of `sub` in `s`, when there is one:
models `strings.SplitN(s, sub, 2)[1]` on the occurring case. -/
def splitFirst (s sub : List Char) : Option (List Char) :=
  match s with
  | [] => if sub.isEmpty then some [] else none
  | _ :: rest =>
    if sub.isPrefixOf s then some (s.drop sub.length)
    else splitFirst rest sub

/-- ASCII decimal digit test, as the Go code performs it on bytes
(`'0' <= c && c <= '9'`). -/
def isDigitC (c : Char) : Bool :=
  decide (48 ≤ c.toNat ∧ c.toNat ≤ 57)

/-- Decimal rendering of a natural number, as produced by
`fmt.Sprintf("%d", n)` for a non-negative `int`. -/
def natDec (n : Nat) : List Char :=
  if h : n < 10 then [Nat.digitChar n]
  else natDec (n / 10) ++ [Nat.digitChar (n % 10)]
decreasing_by exact Nat.div_lt_self (by omega) (by norm_num)

/-- Decimal rendering of an integer, as produced by `fmt.Sprintf("%d", i)`. -/
def intDec (i : Int) : List Char :=
  if i < 0 then '-' :: natDec i.natAbs else natDec i.toNat

/-- The value of a list of decimal digit characters (most significant
first), used to model parsing a digit run. -/
def digitsToNat (l : List Char) : Nat :=
  l.foldl (fun a c => a * 10 + (c.toNat - 48)) 0

/-! ## The `golang.org/x/mod/semver` fragment used by `ParseVersion`

`ParseVersion` validates its input with `semver.IsValid("v" + s)` and
extracts the prerelease and build suffixes with `semver.Prerelease` and
`semver.Build`.  The definitions below embed the `parse`, `parseInt`,
`parsePrerelease` and `parseBuild` functions of that library. -/

/-- Identifier characters of semver prerelease/build segments
(`A-Z`, `a-z`, `0-9`, `-`), the library's `isIdentChar`. -/
def isIdentChar (c : Char) : Bool :=
  c.isAlpha || isDigitC c || c = '-'

/-- The library's `isBadNum`: an all-digit segment of length above one with
a leading zero (numeric prerelease identifiers must not have leading
zeros). -/
def isBadNum (v : List Char) : Bool :=
  v.all isDigitC && decide (1 < v.length) && decide (v.head? = some '0')

/-- The library's `parseInt`: a non-empty leading run of decimal digits
with no redundant leading zero; returns the run and the rest. -/
def parseIntSem (s : List Char) : Option (List Char × List Char) :=
  match s.takeWhile isDigitC with
  | [] => none
  | c :: cs =>
    if c = '0' ∧ cs ≠ [] then none
    else some (c :: cs, s.dropWhile isDigitC)

/-- Validity of one dot-free prerelease segment. -/
def goodPreSeg (seg : List Char) : Bool :=
  decide (seg ≠ []) && seg.all isIdentChar && !isBadNum seg

/-- Validity of one dot-free build segment (leading zeros are allowed in
build metadata). -/
def goodBuildSeg (seg : List Char) : Bool :=
  decide (seg ≠ []) && seg.all isIdentChar

/-- The library's `parsePrerelease`: starting at a `'-'`, scan up to the
first `'+'` (or the end); the scanned body must consist of dot-separated,
non-empty identifier segments none of which is a bad number.  Returns the
prerelease including its leading `'-'`, and the unconsumed rest. -/
def parsePrereleaseSem (v : List Char) : Option (List Char × List Char) :=
  if v.head? = some '-' then
    let body := v.tail.takeWhile (fun x => x != '+')
    let rem := v.tail.dropWhile (fun x => x != '+')
    if (splitOnChar '.' body).all goodPreSeg then some ('-' :: body, rem)
    else none
  else none

/-- The library's `parseBuild`: starting at a `'+'`, the whole remainder
must consist of dot-separated, non-empty identifier segments.  Returns the
build including its leading `'+'` and an empty rest. -/
def parseBuildSem (v : List Char) : Option (List Char × List Char) :=
  if v.head? = some '+' then
    if (splitOnChar '.' v.tail).all goodBuildSeg then some ('+' :: v.tail, [])
    else none
  else none

/-- Result of the library's `parse`: the textual major/minor/patch digit
runs and the prerelease/build suffixes (with their leading markers). -/
structure SemParsed where
  major : List Char
  minor : List Char
  patch : List Char
  pre : List Char
  bld : List Char
deriving Repr, DecidableEq

/-- The optional `-prerelease` / `+build` tail after the numeric core, in
the order the library consumes it. -/
def semTail (v : List Char) : Option (List Char × List Char) :=
  (if v.head? = some '-' then parsePrereleaseSem v else some ([], v)).bind
    (fun pb =>
      (if pb.2.head? = some '+' then parseBuildSem pb.2 else some ([], pb.2)).bind
        (fun bb => if bb.2 = [] then some (pb.1, bb.1) else none))

/-- The library's `parse`: requires the leading `'v'`, a major digit run,
then optionally `.minor`, then optionally `.patch`, then the optional
prerelease/build tail (the tail is only permitted after a full
three-component core, as in the library). -/
def semParse (v : List Char) : Option SemParsed :=
  if v.head? = some 'v' then
    (parseIntSem v.tail).bind fun mj =>
      if mj.2 = [] then some ⟨mj.1, ['0'], ['0'], [], []⟩
      else if mj.2.head? = some '.' then
        (parseIntSem mj.2.tail).bind fun mn =>
          if mn.2 = [] then some ⟨mj.1, mn.1, ['0'], [], []⟩
          else if mn.2.head? = some '.' then
            (parseIntSem mn.2.tail).bind fun pt =>
              (semTail pt.2).bind fun tl => some ⟨mj.1, mn.1, pt.1, tl.1, tl.2⟩
          else none
      else none
  else none

/-- The library's `IsValid`. -/
def semIsValid (v : List Char) : Bool :=
  (semParse v).isSome

/-- The library's `Prerelease` (empty for invalid input). -/
def semPrerelease (v : List Char) : List Char :=
  ((semParse v).map SemParsed.pre).getD []

/-- The library's `Build` (empty for invalid input). -/
def semBuild (v : List Char) : List Char :=
  ((semParse v).map SemParsed.bld).getD []

/-! ## The version model (version.go) -/

/-- `Version` of version.go.  `pfx` models the `Prefix` field (the word
`Prefix` is reserved here).  `prerelease` and `build` carry their leading
`'-'` / `'+'` markers exactly as `semver.Prerelease` / `semver.Build`
return them. -/
structure Version where
  major : Nat
  minor : Nat
  patch : Nat
  prerelease : List Char
  build : List Char
  pfx : List Char
  raw : List Char
deriving Repr, DecidableEq

/-- The two error shapes of `ParseVersion`: the distinct message for the
empty string and the invalid-semantic-version message. -/
inductive VerError where
  | emptyVersion
  | invalidVersion
deriving Repr, DecidableEq

/-- Model of `fmt.Sscanf(part, "%d", &x)` with the fallback to 0 used by
`ParseVersion`: the value of the leading digit run, or 0 when there is
none.  The parts this is applied to have passed the semver grammar check,
so they are plain digit runs. -/
def sscanfNat (l : List Char) : Nat :=
  let ds := l.takeWhile isDigitC
  if ds = [] then 0 else digitsToNat ds

/-- Dropping a single leading `'v'`, as `ParseVersion` does via
`strings.HasPrefix(versionStr, "v")`. -/
def stripV (s : List Char) : List Char :=
  if s.head? = some 'v' then s.tail else s

/-- The recorded prefix of the input: `"v"` when present, else empty. -/
def vPrefixOf (s : List Char) : List Char :=
  if s.head? = some 'v' then ['v'] else []

/-- `String()` of version.go: `major.minor.patch` followed by the
prerelease and build suffixes when non-empty, behind the stored prefix. -/
def Version.render (v : Version) : List Char :=
  let core := natDec v.major ++ '.' :: natDec v.minor ++ '.' :: natDec v.patch
  let s1 := if v.prerelease ≠ [] then core ++ v.prerelease else core
  let s2 := if v.build ≠ [] then s1 ++ v.build else s1
  v.pfx ++ s2

/-- `WithoutPrefix()` of version.go. -/
def Version.withoutPrefix (v : Version) : List Char :=
  let core := natDec v.major ++ '.' :: natDec v.minor ++ '.' :: natDec v.patch
  let s1 := if v.prerelease ≠ [] then core ++ v.prerelease else core
  if v.build ≠ [] then s1 ++ v.build else s1

/-- `ParseVersion` of version.go: reject the empty string with the
distinct empty-version error; strip an optional `'v'`; validate
`"v" + rest` with the semver library; extract prerelease and build; cut
the core at the first `'-'` (only when a prerelease is present) and then
at the first `'+'` (only when build metadata is present); split the core
on `'.'` and scan up to three numeric parts, each falling back to 0. -/
def ParseVersion (s : List Char) : Except VerError Version :=
  if s = [] then .error .emptyVersion
  else
    let body := stripV s
    if semIsValid ('v' :: body) then
      let pre := semPrerelease ('v' :: body)
      let bld := semBuild ('v' :: body)
      let core1 := if pre ≠ [] then (splitOnChar '-' body).headI else body
      let core := if bld ≠ [] then (splitOnChar '+' core1).headI else core1
      let parts := splitOnChar '.' core
      let mj := sscanfNat (parts.getD 0 [])
      let mn := if 2 ≤ parts.length then sscanfNat (parts.getD 1 []) else 0
      let pt := if 3 ≤ parts.length then sscanfNat (parts.getD 2 []) else 0
      .ok ⟨mj, mn, pt, pre, bld, vPrefixOf s, s⟩
    else .error .invalidVersion

/-! ## The commit model (commits.go) -/

/-- `BumpType` of commits.go (`None < Patch < Minor < Major` via the
`iota` values). -/
inductive BumpType where
  | none
  | patch
  | minor
  | major
deriving Repr, DecidableEq

/-- The `iota` value behind each `BumpType` constant; the Go code compares
bump types with `<` on these values. -/
def BumpType.val : BumpType → Nat
  | .none => 0
  | .patch => 1
  | .minor => 2
  | .major => 3

/-- `BumpVersion` of version.go: copy the version with prerelease and
build cleared, apply the increment for the bump type, and recompute the
raw text. -/
def BumpVersion (cur : Version) (bt : BumpType) : Version :=
  let base : Version :=
    { major := cur.major, minor := cur.minor, patch := cur.patch
      prerelease := [], build := [], pfx := cur.pfx, raw := [] }
  let stepped :=
    match bt with
    | .major => { base with major := base.major + 1, minor := 0, patch := 0 }
    | .minor => { base with minor := base.minor + 1, patch := 0 }
    | .patch => { base with patch := base.patch + 1 }
    | .none => base
  { stepped with raw := stepped.render }

/-- `CalculateNextVersion` of version.go: `None` returns the current
version itself; anything else delegates to `BumpVersion`. -/
def CalculateNextVersion (cur : Version) (bt : BumpType) : Version :=
  if bt = .none then cur else BumpVersion cur bt

/-- `CreatePrereleaseVersion` of version.go: copy major/minor/patch,
prefix and build from the base; set the prerelease to
`-label.iteration` when `iteration > 0` and to `-label` otherwise;
recompute the raw text. -/
def CreatePrereleaseVersion (base : Version) (prereleaseType : List Char)
    (iteration : Int) : Version :=
  let nv : Version :=
    { major := base.major, minor := base.minor, patch := base.patch
      prerelease := [], build := base.build, pfx := base.pfx, raw := [] }
  let nv :=
    if iteration > 0 then
      { nv with prerelease := '-' :: prereleaseType ++ '.' :: intDec iteration }
    else
      { nv with prerelease := '-' :: prereleaseType }
  { nv with raw := nv.render }

/-! ## Configuration (config.go), restricted to the fields the verified
operations read -/

/-- `CommitType` of config.go: display title and the configured semver
bump level (`"major"`, `"minor"`, `"patch"` or `"none"`). -/
structure CommitTypeConfig where
  title : List Char
  semver : List Char
deriving Repr, DecidableEq

/-- `CommitsConfig` of config.go.  The Go `map[string]CommitType` is
modelled as an association list with distinct keys. -/
structure CommitsConfig where
  types : List (List Char × CommitTypeConfig)
  breakingChangeKeywords : List (List Char)
deriving Repr, DecidableEq

/-- The herald configuration, restricted to the commit settings the
classifier and bump resolver consult. -/
structure Config where
  commits : CommitsConfig
deriving Repr, DecidableEq

/-- The commit-type table of `DefaultConfig()` in config.go. -/
def defaultTypes : List (List Char × CommitTypeConfig) :=
  [("feat".data, ⟨"Features".data, "minor".data⟩),
   ("fix".data, ⟨"Bug Fixes".data, "patch".data⟩),
   ("docs".data, ⟨"Documentation".data, "none".data⟩),
   ("style".data, ⟨"Styles".data, "none".data⟩),
   ("refactor".data, ⟨"Code Refactoring".data, "none".data⟩),
   ("test".data, ⟨"Tests".data, "none".data⟩),
   ("chore".data, ⟨"Chores".data, "none".data⟩)]

/-- `DefaultConfig()` of config.go, restricted to the commit settings. -/
def defaultConfig : Config :=
  { commits :=
      { types := defaultTypes
        breakingChangeKeywords := ["BREAKING CHANGE".data, "BREAKING-CHANGE".data] } }

/-! ## The commit classifier (commits.go) -/

/-- A raw git commit record as delivered by the git layer (the fields the
classifier reads). -/
structure GitCommit where
  hash : List Char
  subject : List Char
  body : List Char
deriving Repr, DecidableEq

/-- `ConventionalCommit` of commits.go. -/
structure ConventionalCommit where
  type : List Char
  scope : List Char
  description : List Char
  body : List Char
  isBreakingChange : Bool
  breakingChanges : List (List Char)
  original : GitCommit
deriving Repr, DecidableEq

/-- Word characters of the regexp class `\w` (`[0-9A-Za-z_]`). -/
def isWordChar (c : Char) : Bool :=
  c.isAlpha || isDigitC c || c = '_'

/-- The anchored match of the parser pattern against a subject line.

The pattern compiled in `NewParser` matches
`type` then optionally `(scope)` then the two characters `": "` then a
non-empty description running to the end of the line.  The match is
deterministic even under the regexp engine's backtracking: the character
after the greedy word run must be `'('` or `':'`, neither of which is a
word character, so the run is forced to the maximal word-character
run; the scope class excludes `')'`, so a present scope is forced to end
at the first `')'`.  The dot of the description pattern excludes newline
characters. -/
def matchConventional (s : List Char) : Option (List Char × List Char × List Char) :=
  let ty := s.takeWhile isWordChar
  let rest := s.dropWhile isWordChar
  if ty = [] then none
  else
    match rest with
    | '(' :: r1 =>
      let sc := r1.takeWhile (fun c => c != ')')
      let r2 := r1.dropWhile (fun c => c != ')')
      if sc = [] then none
      else
        match r2 with
        | ')' :: ':' :: ' ' :: d =>
          if d ≠ [] ∧ d.all (fun c => c != '\n') then some (ty, sc, d) else none
        | _ => none
    | ':' :: ' ' :: d =>
      if d ≠ [] ∧ d.all (fun c => c != '\n') then some (ty, [], d) else none
    | _ => none

/-- `hasBreakingChange` of commits.go: a literal `"!:"` anywhere in the
subject, or any configured keyword anywhere in `subject + "\n" + body`. -/
def hasBreakingChange (cfg : Config) (commit : GitCommit) : Bool :=
  containsSub commit.subject "!:".data ||
    (cfg.commits.breakingChangeKeywords.any
      (fun kw => containsSub (commit.subject ++ '\n' :: commit.body) kw))

/-- The per-line extraction step of `extractBreakingChanges`: the trimmed
text after the first keyword occurrence, with one leading `':'` stripped
and re-trimmed, kept only when non-empty. -/
def breakingLineDescription (kw line : List Char) : Option (List Char) :=
  if containsSub line kw then
    match splitFirst line kw with
    | some after =>
      let d := trimSpace after
      let d := if d.head? = some ':' then trimSpace d.tail else d
      if d ≠ [] then some d else none
    | none => none
  else none

/-- `extractBreakingChanges` of commits.go: for each configured keyword
occurring in `subject + "\n" + body`, collect the non-empty descriptions
extracted from every line containing the keyword. -/
def extractBreakingChanges (cfg : Config) (commit : GitCommit) : List (List Char) :=
  let fullMessage := commit.subject ++ '\n' :: commit.body
  cfg.commits.breakingChangeKeywords.foldl
    (fun acc kw =>
      if containsSub fullMessage kw then
        acc ++ (splitOnChar '\n' fullMessage).filterMap (breakingLineDescription kw)
      else acc)
    []

/-- `ParseCommit` of commits.go: on a pattern match, take type, scope and
description from the match; otherwise fall back to type `"other"` with
the whole subject as the description.  Breaking-change detection is
independent of the match. -/
def ParseCommit (cfg : Config) (commit : GitCommit) : ConventionalCommit :=
  let tsd :=
    match matchConventional commit.subject with
    | Option.none => ("other".data, ([], commit.subject))
    | some (t, sc, d) => (t, (sc, d))
  { type := tsd.1, scope := tsd.2.1, description := tsd.2.2
    body := commit.body
    isBreakingChange := hasBreakingChange cfg commit
    breakingChanges := extractBreakingChanges cfg commit
    original := commit }

/-- The loop body accumulator step of `CalculateBumpType`. -/
def bumpStep (acc : BumpType) (c : ConventionalCommit) : BumpType :=
  let acc1 := if c.type = "feat".data ∧ acc.val < BumpType.minor.val then .minor else acc
  if c.type = "fix".data ∧ acc1.val < BumpType.patch.val then .patch else acc1

/-- The loop of `CalculateBumpType`: an early `return Major` on the first
breaking commit, otherwise the running maximum restricted to the
hard-coded `feat`/`fix` rules. -/
def calculateBumpTypeGo (cs : List ConventionalCommit) (acc : BumpType) : BumpType :=
  match cs with
  | [] => acc
  | c :: rest =>
    if c.isBreakingChange then .major
    else calculateBumpTypeGo rest (bumpStep acc c)

/-- `CalculateBumpType` of commits.go.  The parser's configuration is in
scope as the method receiver but is never consulted by this function. -/
def CalculateBumpType (cfg : Config) (cs : List ConventionalCommit) : BumpType :=
  let _ := cfg
  calculateBumpTypeGo cs .none

/-- `GroupCommitsByType` keys groups on the `type` field; the keys of the
resulting map are therefore the distinct type names, and
`SortCommitsByType` iterates over them in Go map order.  The iteration
order of a Go map is deliberately randomised between runs, so the model
takes the enumeration of the key set as an explicit argument. -/
def sortAddRemaining (acc : List (List Char)) : List (List Char) → List (List Char)
  | [] => acc
  | k :: rest =>
    sortAddRemaining (if acc.contains k then acc else acc ++ [k]) rest

/-- The fixed priority order of `SortCommitsByType`. -/
def priorityTypes : List (List Char) :=
  ["feat".data, "fix".data, "docs".data, "style".data, "refactor".data,
   "test".data, "chore".data]

/-- `SortCommitsByType` of commits.go, with the Go map's key enumeration
made explicit: `keys` is the order in which `range groups` yields the
(distinct) keys of the grouping.  First the priority types present among
the keys, then every remaining key not already listed, in enumeration
order. -/
def SortCommitsByType (keys : List (List Char)) : List (List Char) :=
  sortAddRemaining (priorityTypes.filter (fun t => keys.contains t)) keys

/-! ## The changelog merge (changelog.go, `PrependRelease` minus file I/O) -/

/-- The literal header marker `"# Changelog"` that `PrependRelease`
searches for. -/
def changelogMarker : List Char :=
  "# Changelog".data

/-- The standard header block synthesised when the existing document does
not contain the marker. -/
def headerBlock : List Char :=
  ("# Changelog\n\nAll notable changes to this project will be documented in this file.\n\nThe format is based on [Keep a Changelog](https://keepachangelog.com/en/1.0.0/),\nand this project adheres to [Semantic Versioning](https://semver.org/spec/v2.0.0.html).\n\n").data

/-- The header-boundary scan of `PrependRelease`: walk the lines with the
`headerEndFound` flag; break with the current index on the first
non-blank line after a line mentioning `"Semantic Versioning"`, or on the
first line starting with `"## "`; a completed loop leaves the index 0. -/
def findContentStart (lines : List (List Char)) (i : Nat) (headerEnd : Bool) : Nat :=
  match lines with
  | [] => 0
  | line :: rest =>
    if headerEnd ∧ trimSpace line ≠ [] then i
    else if "## ".data.isPrefixOf line then i
    else
      findContentStart rest (i + 1)
        (headerEnd || containsSub line "Semantic Versioning".data)

/-- `PrependRelease` of changelog.go as a pure document transform
(`mergeIntoDocument(existingText, renderedSection)` of the spec): the
file read/write around it is the I/O boundary.  A synthesised header is
added only when the existing text is empty or lacks the marker; when the
existing text has the marker, the lines from the scanned content start
onward are appended after the new section (and only when that index is
positive). -/
def mergeIntoDocument (existingContent newRelease : List Char) : List Char :=
  let front :=
    if existingContent = [] ∨ ¬ containsSub existingContent changelogMarker then
      headerBlock ++ newRelease
    else newRelease
  if existingContent ≠ [] then
    if containsSub existingContent changelogMarker then
      let lines := splitOnChar '\n' existingContent
      let start := findContentStart lines 0 false
      if 0 < start then front ++ joinLines (lines.drop start) else front
    else front ++ existingContent
  else front

/-! ## Spec-side definitions, for comparison against the code

These definitions follow the specification's words, not the source; each
use below compares them with functions embedded from the source. -/

/-- Spec-side reading of a configured severity string as a bump level
(§3 CommitTypeConfig: severity is one of `None|Patch|Minor|Major`). -/
def specLevelOfString (s : List Char) : BumpType :=
  if s = "major".data then .major
  else if s = "minor".data then .minor
  else if s = "patch".data then .patch
  else .none

/-- Spec-side severity lookup (§4.3): `typeConfig[commit.type].severity`,
contributing `None` for an unrecognised type. -/
def specSeverityOf (cfg : Config) (t : List Char) : BumpType :=
  match (cfg.commits.types.find? (fun e => e.1 = t)) with
  | some e => specLevelOfString e.2.semver
  | Option.none => .none

/-- The maximum of two bump levels under `None < Patch < Minor < Major`. -/
def bumpMax (a b : BumpType) : BumpType :=
  if a.val < b.val then b else a

/-- Spec-side bump resolution for non-breaking commit lists (§4.3): the
maximum configured severity across all commits. -/
def specResolveBumpNonBreaking (cfg : Config) (cs : List ConventionalCommit) : BumpType :=
  cs.foldl (fun acc c => bumpMax acc (specSeverityOf cfg c.type)) .none

/-! ## Canonical version strings (for the round-trip property) -/

/-- A well-formed prerelease suffix standing on its own: empty, or a
complete parse of itself (which forces the leading `'-'`, valid
dot-separated identifier segments and no embedded `'+'`). -/
def ValidPreSuffix (pre : List Char) : Prop :=
  pre = [] ∨ parsePrereleaseSem pre = some (pre, [])

/-- A well-formed build suffix standing on its own: empty, or a complete
parse of itself (which forces the leading `'+'` and valid segments). -/
def ValidBuildSuffix (bld : List Char) : Prop :=
  bld = [] ∨ parseBuildSem bld = some (bld, [])

/-- The body of a canonically formatted version string: canonical decimal
core components joined by dots, followed by the suffixes. -/
def vbody (M m p : Nat) (pre bld : List Char) : List Char :=
  natDec M ++ '.' :: (natDec m ++ '.' :: (natDec p ++ (pre ++ bld)))

/-- A version string with a full `major.minor.patch` core and no
redundant formatting: an optional `v` prefix, canonical decimal numerals
(no leading zeros, as printed by the renderer), and well-formed optional
prerelease/build suffixes. -/
def CanonicalVersionString (s : List Char) : Prop :=
  ∃ pfx M m p pre bld,
    (pfx = [] ∨ pfx = ['v']) ∧ ValidPreSuffix pre ∧ ValidBuildSuffix bld ∧
      s = pfx ++ vbody M m p pre bld

/-! ## Helper lemmas -/

theorem digitChar_isDigit {d : Nat} (h : d < 10) :
    isDigitC (Nat.digitChar d) = true := by
  interval_cases d <;> decide

theorem digitChar_toNat {d : Nat} (h : d < 10) :
    (Nat.digitChar d).toNat - 48 = d := by
  interval_cases d <;> decide

theorem digitChar_ne_zero {d : Nat} (h : d < 10) (h0 : d ≠ 0) :
    Nat.digitChar d ≠ '0' := by
  interval_cases d <;> simp_all <;> decide

theorem natDec_lt10 (n : Nat) (h : n < 10) : natDec n = [Nat.digitChar n] := by
  rw [natDec, dif_pos h]

theorem natDec_ne_nil (n : Nat) : natDec n ≠ [] := by
  rw [natDec]
  split
  · simp
  · simp

theorem natDec_all_digit (n : Nat) : (natDec n).all isDigitC = true := by
  induction n using Nat.strong_induction_on with
  | _ n ih =>
    rw [natDec]
    split
    · rename_i h
      simp [digitChar_isDigit h]
    · rename_i h
      have hd : n / 10 < n := Nat.div_lt_self (by omega) (by norm_num)
      simp [List.all_append, ih (n / 10) hd,
        digitChar_isDigit (Nat.mod_lt n (by norm_num))]

theorem natDec_head_ne_zero (n : Nat) (h10 : 10 ≤ n) :
    ∀ c cs, natDec n = c :: cs → c ≠ '0' := by
  induction n using Nat.strong_induction_on with
  | _ n ih =>
    intro c cs heq
    rw [natDec] at heq
    rw [dif_neg (by omega)] at heq
    by_cases h' : 10 ≤ n / 10
    · obtain ⟨c', cs', hc'⟩ := List.exists_cons_of_ne_nil (natDec_ne_nil (n / 10))
      rw [hc'] at heq
      simp only [List.cons_append, List.cons.injEq] at heq
      exact heq.1 ▸ ih (n / 10) (Nat.div_lt_self (by omega) (by norm_num)) h' c' cs' hc'
    · have hlow : n / 10 < 10 := by omega
      have hpos : n / 10 ≠ 0 := by omega
      rw [natDec, dif_pos hlow] at heq
      simp only [List.cons_append, List.cons.injEq] at heq
      exact heq.1 ▸ digitChar_ne_zero hlow hpos

theorem natDec_no_leading_zero (n : Nat) :
    ∀ c cs, natDec n = c :: cs → c = '0' → cs = [] := by
  intro c cs heq hc
  by_cases h : n < 10
  · rw [natDec, dif_pos h] at heq
    simp only [List.cons.injEq] at heq
    exact heq.2.symm
  · exact absurd hc (natDec_head_ne_zero n (by omega) c cs heq)

theorem digitsToNat_natDec (n : Nat) : digitsToNat (natDec n) = n := by
  induction n using Nat.strong_induction_on with
  | _ n ih =>
    rw [natDec]
    split
    · rename_i h
      simp [digitsToNat, digitChar_toNat h]
    · rename_i h
      have hd : n / 10 < n := Nat.div_lt_self (by omega) (by norm_num)
      have hm : n % 10 < 10 := Nat.mod_lt n (by norm_num)
      unfold digitsToNat
      rw [List.foldl_append]
      have := ih (n / 10) hd
      unfold digitsToNat at this
      rw [this]
      simp only [List.foldl_cons, List.foldl_nil]
      rw [digitChar_toNat hm]
      omega

theorem containsSub_correct (s sub : List Char) :
    containsSub s sub = true ↔ sub <:+: s := by
  induction s with
  | nil =>
    simp only [containsSub, List.isEmpty_iff]
    constructor
    · rintro rfl; exact List.infix_rfl
    · exact fun h => List.eq_nil_of_infix_nil h
  | cons c rest ih =>
    simp only [containsSub, Bool.or_eq_true, ih]
    constructor
    · rintro (hp | hi)
      · exact (List.isPrefixOf_iff_prefix.mp hp).isInfix
      · exact hi.trans (List.infix_cons (List.infix_rfl))
    · intro h
      rcases List.infix_cons_iff.mp h with hp | hi
      · exact Or.inl (List.isPrefixOf_iff_prefix.mpr hp)
      · exact Or.inr hi

theorem takeWhile_append_all {p : Char → Bool} (l r : List Char)
    (h : l.all p = true) : (l ++ r).takeWhile p = l ++ r.takeWhile p := by
  induction l with
  | nil => simp
  | cons c cs ih =>
    simp only [List.all_cons, Bool.and_eq_true] at h
    simp [List.takeWhile_cons, h.1, ih h.2]

theorem dropWhile_append_all {p : Char → Bool} (l r : List Char)
    (h : l.all p = true) : (l ++ r).dropWhile p = r.dropWhile p := by
  induction l with
  | nil => simp
  | cons c cs ih =>
    simp only [List.all_cons, Bool.and_eq_true] at h
    simp [List.dropWhile_cons, h.1, ih h.2]

theorem takeWhile_all {p : Char → Bool} (l : List Char)
    (h : l.all p = true) : l.takeWhile p = l := by
  have := takeWhile_append_all (p := p) l [] h
  simpa using this

theorem all_imp {p q : Char → Bool} (l : List Char) (h : l.all p = true)
    (himp : ∀ c, p c = true → q c = true) : l.all q = true := by
  rw [List.all_eq_true] at h ⊢
  exact fun c hc => himp c (h c hc)

theorem isDigitC_ne_special {c : Char} (h : isDigitC c = true) :
    c ≠ '.' ∧ c ≠ '-' ∧ c ≠ '+' ∧ c ≠ 'v' := by
  refine ⟨?_, ?_, ?_, ?_⟩ <;> rintro rfl <;> revert h <;> decide

theorem natDec_head_digit (n : Nat) :
    ∃ c cs, natDec n = c :: cs ∧ isDigitC c = true := by
  obtain ⟨c, cs, hc⟩ := List.exists_cons_of_ne_nil (natDec_ne_nil n)
  refine ⟨c, cs, hc, ?_⟩
  have := natDec_all_digit n
  rw [hc, List.all_cons, Bool.and_eq_true] at this
  exact this.1

theorem parseIntSem_natDec (n : Nat) (rest : List Char)
    (hrest : ∀ c, rest.head? = some c → isDigitC c = false) :
    parseIntSem (natDec n ++ rest) = some (natDec n, rest) := by
  have htail : rest.takeWhile isDigitC = [] ∧ rest.dropWhile isDigitC = rest := by
    cases rest with
    | nil => simp
    | cons c r =>
      have := hrest c rfl
      simp [List.takeWhile_cons, List.dropWhile_cons, this]
  have htw : (natDec n ++ rest).takeWhile isDigitC = natDec n := by
    rw [takeWhile_append_all _ _ (natDec_all_digit n), htail.1, List.append_nil]
  have hdw : (natDec n ++ rest).dropWhile isDigitC = rest := by
    rw [dropWhile_append_all _ _ (natDec_all_digit n), htail.2]
  obtain ⟨c, cs, hc⟩ := List.exists_cons_of_ne_nil (natDec_ne_nil n)
  have hcond : ¬(c = '0' ∧ cs ≠ []) := by
    rintro ⟨rfl, hne⟩
    exact hne (natDec_no_leading_zero n _ cs hc rfl)
  unfold parseIntSem
  rw [htw, hdw, hc]
  show (if c = '0' ∧ cs ≠ [] then none else some (c :: cs, rest)) = some (c :: cs, rest)
  rw [if_neg hcond]

theorem sscanfNat_natDec (n : Nat) : sscanfNat (natDec n) = n := by
  unfold sscanfNat
  rw [takeWhile_all _ (natDec_all_digit n), if_neg (by simpa using natDec_ne_nil n)]
  exact digitsToNat_natDec n

theorem splitOnChar_ne_nil (sep : Char) (s : List Char) :
    splitOnChar sep s ≠ [] := by
  cases s with
  | nil => simp [splitOnChar]
  | cons c rest =>
    rw [splitOnChar]
    rcases h : splitOnChar sep rest with _ | ⟨h1, t⟩
    · simp
    · by_cases hc : c = sep <;> simp [hc]

theorem splitOnChar_head (sep : Char) (s : List Char) :
    ∃ t, splitOnChar sep s = s.takeWhile (fun c => c != sep) :: t := by
  induction s with
  | nil => exact ⟨[], rfl⟩
  | cons c rest ih =>
    obtain ⟨t, ht⟩ := ih
    by_cases hc : c = sep
    · subst hc
      refine ⟨rest.takeWhile (fun x => x != c) :: t, ?_⟩
      rw [splitOnChar, ht]
      simp [List.takeWhile_cons]
    · refine ⟨t, ?_⟩
      rw [splitOnChar, ht]
      have hcb : (c != sep) = true := by simpa using hc
      simp [hc, List.takeWhile_cons, hcb]

theorem splitOnChar_headI (sep : Char) (s : List Char) :
    (splitOnChar sep s).headI = s.takeWhile (fun c => c != sep) := by
  obtain ⟨t, ht⟩ := splitOnChar_head sep s
  rw [ht, List.headI]

theorem splitOnChar_append (sep : Char) (l r : List Char)
    (hl : l.all (fun c => c != sep) = true) :
    splitOnChar sep (l ++ sep :: r) = l :: splitOnChar sep r := by
  induction l with
  | nil =>
    rcases hr : splitOnChar sep r with _ | ⟨h, t⟩
    · exact absurd hr (splitOnChar_ne_nil sep r)
    · simp [splitOnChar, hr]
  | cons c cs ih =>
    simp only [List.all_cons, Bool.and_eq_true] at hl
    have hc : c ≠ sep := by simpa using hl.1
    rw [List.cons_append, splitOnChar, ih hl.2]
    simp [hc]

theorem splitOnChar_no_sep (sep : Char) (l : List Char)
    (hl : l.all (fun c => c != sep) = true) :
    splitOnChar sep l = [l] := by
  induction l with
  | nil => rfl
  | cons c cs ih =>
    simp only [List.all_cons, Bool.and_eq_true] at hl
    have hc : c ≠ sep := by simpa using hl.1
    rw [splitOnChar, ih hl.2]
    simp [hc]

theorem parsePrereleaseSem_self_inv (pre : List Char)
    (h : parsePrereleaseSem pre = some (pre, [])) :
    ∃ pb, pre = '-' :: pb ∧ pb.all (fun x => x != '+') = true ∧
      (splitOnChar '.' pb).all goodPreSeg = true := by
  cases pre with
  | nil => simp [parsePrereleaseSem] at h
  | cons c rest =>
    by_cases hc : c = '-'
    · subst hc
      unfold parsePrereleaseSem at h
      have hcond : ('-' :: rest : List Char).head? = some '-' := rfl
      rw [if_pos hcond] at h
      simp only [List.tail_cons] at h
      split at h
      · rename_i hseg
        simp only [Option.some.injEq, Prod.mk.injEq, List.cons.injEq, true_and] at h
        obtain ⟨hbody, -⟩ := h
        have hall : rest.all (fun x => x != '+') = true := by
          rw [List.all_eq_true]
          exact fun x hx => List.takeWhile_eq_self_iff.mp hbody x hx
        refine ⟨rest, rfl, hall, ?_⟩
        rw [← hbody]
        exact hseg
      · exact absurd h (by simp)
    · have hh : (c :: rest).head? ≠ some '-' := by simpa using hc
      unfold parsePrereleaseSem at h
      rw [if_neg hh] at h
      exact absurd h (by simp)

theorem parseBuildSem_self_inv (bld : List Char)
    (h : parseBuildSem bld = some (bld, [])) :
    ∃ b, bld = '+' :: b ∧ (splitOnChar '.' b).all goodBuildSeg = true := by
  cases bld with
  | nil => simp [parseBuildSem] at h
  | cons c rest =>
    by_cases hc : c = '+'
    · subst hc
      unfold parseBuildSem at h
      have hcond : ('+' :: rest : List Char).head? = some '+' := rfl
      rw [if_pos hcond] at h
      simp only [List.tail_cons] at h
      split at h
      · rename_i hseg
        exact ⟨rest, rfl, hseg⟩
      · exact absurd h (by simp)
    · have hh : (c :: rest).head? ≠ some '+' := by simpa using hc
      unfold parseBuildSem at h
      rw [if_neg hh] at h
      exact absurd h (by simp)

theorem parsePrereleaseSem_extend (pre bld : List Char)
    (h : parsePrereleaseSem pre = some (pre, []))
    (hb : bld = [] ∨ bld.head? = some '+') :
    parsePrereleaseSem (pre ++ bld) = some (pre, bld) := by
  obtain ⟨pb, rfl, hall, hseg⟩ := parsePrereleaseSem_self_inv pre h
  have hb2 : bld.takeWhile (fun x => x != '+') = [] ∧
      bld.dropWhile (fun x => x != '+') = bld := by
    rcases hb with rfl | hb
    · simp
    · cases bld with
      | nil => simp
      | cons b bs =>
        have hb' : b = '+' := by simpa using hb
        subst hb'
        constructor
        · simp [List.takeWhile_cons]
        · simp [List.dropWhile_cons]
  show parsePrereleaseSem ('-' :: (pb ++ bld)) = _
  unfold parsePrereleaseSem
  have hcond : ('-' :: (pb ++ bld) : List Char).head? = some '-' := rfl
  rw [if_pos hcond]
  simp only [List.tail_cons]
  simp only [takeWhile_append_all pb bld hall, dropWhile_append_all pb bld hall,
    hb2.1, hb2.2, List.append_nil, hseg, if_true]

theorem semTail_canonical (pre bld : List Char) (hp : ValidPreSuffix pre)
    (hb : ValidBuildSuffix bld) : semTail (pre ++ bld) = some (pre, bld) := by
  have hbshape : bld = [] ∨ bld.head? = some '+' := by
    rcases hb with rfl | hb
    · exact Or.inl rfl
    · obtain ⟨b, rfl, -⟩ := parseBuildSem_self_inv bld hb
      exact Or.inr rfl
  rcases hp with rfl | hp
  · simp only [List.nil_append]
    rcases hb with rfl | hbld
    · rfl
    · obtain ⟨b, hbeq, -⟩ := parseBuildSem_self_inv bld hbld
      unfold semTail
      rw [if_neg (by rw [hbeq]; simp)]
      simp only [Option.some_bind]
      rw [if_pos (by rw [hbeq]; rfl), hbld]
      simp
  · have hext := parsePrereleaseSem_extend pre bld hp hbshape
    obtain ⟨pb, hpeq, -, -⟩ := parsePrereleaseSem_self_inv pre hp
    unfold semTail
    rw [if_pos (by rw [hpeq]; rfl), hext]
    simp only [Option.some_bind]
    rcases hb with rfl | hbld
    · simp
    · obtain ⟨b, hbeq, -⟩ := parseBuildSem_self_inv bld hbld
      rw [if_pos (by rw [hbeq]; rfl), hbld]
      simp

theorem head_not_digit_of_suffixes (pre bld : List Char)
    (hp : ValidPreSuffix pre) (hb : ValidBuildSuffix bld) :
    ∀ c, (pre ++ bld).head? = some c → isDigitC c = false := by
  intro c hc
  rcases hp with rfl | hp
  · rcases hb with rfl | hbld
    · simp at hc
    · obtain ⟨b, rfl, -⟩ := parseBuildSem_self_inv bld hbld
      simp only [List.nil_append, List.head?_cons, Option.some.injEq] at hc
      subst hc; decide
  · obtain ⟨pb, rfl, -, -⟩ := parsePrereleaseSem_self_inv pre hp
    simp only [List.cons_append, List.head?_cons, Option.some.injEq] at hc
    subst hc; decide

theorem semParse_canonical (M m p : Nat) (pre bld : List Char)
    (hp : ValidPreSuffix pre) (hb : ValidBuildSuffix bld) :
    semParse ('v' :: vbody M m p pre bld)
      = some ⟨natDec M, natDec m, natDec p, pre, bld⟩ := by
  unfold semParse vbody
  have hcond : ('v' :: (natDec M ++ '.' :: (natDec m ++ '.' :: (natDec p ++ (pre ++ bld)))) :
      List Char).head? = some 'v' := rfl
  rw [if_pos hcond]
  simp only [List.tail_cons]
  rw [parseIntSem_natDec M ('.' :: (natDec m ++ '.' :: (natDec p ++ (pre ++ bld))))
    (by intro c hc; simp only [List.head?_cons, Option.some.injEq] at hc; subst hc; decide)]
  simp only [Option.some_bind]
  have hcond2 : ('.' :: (natDec m ++ '.' :: (natDec p ++ (pre ++ bld))) :
      List Char).head? = some '.' := rfl
  rw [if_neg (by simp), if_pos hcond2]
  simp only [List.tail_cons]
  rw [parseIntSem_natDec m ('.' :: (natDec p ++ (pre ++ bld)))
    (by intro c hc; simp only [List.head?_cons, Option.some.injEq] at hc; subst hc; decide)]
  simp only [Option.some_bind]
  have hcond3 : ('.' :: (natDec p ++ (pre ++ bld)) : List Char).head? = some '.' := rfl
  rw [if_neg (by simp), if_pos hcond3]
  simp only [List.tail_cons]
  rw [parseIntSem_natDec p (pre ++ bld) (head_not_digit_of_suffixes pre bld hp hb)]
  simp only [Option.some_bind]
  rw [semTail_canonical pre bld hp hb]
  rfl

theorem coreStr_all (M m p : Nat) {q : Char → Bool}
    (hdig : ∀ c, isDigitC c = true → q c = true) (hdot : q '.' = true) :
    (natDec M ++ '.' :: (natDec m ++ '.' :: natDec p)).all q = true := by
  simp [List.all_append, List.all_cons, hdot,
    all_imp _ (natDec_all_digit M) hdig, all_imp _ (natDec_all_digit m) hdig,
    all_imp _ (natDec_all_digit p) hdig]

theorem coreStr_all_ne_minus (M m p : Nat) :
    (natDec M ++ '.' :: (natDec m ++ '.' :: natDec p)).all (fun x => x != '-') = true :=
  coreStr_all M m p
    (fun c hc => by
      simp only [bne_iff_ne, ne_eq, decide_eq_true_eq]
      exact (isDigitC_ne_special hc).2.1)
    (by decide)

theorem coreStr_all_ne_plus (M m p : Nat) :
    (natDec M ++ '.' :: (natDec m ++ '.' :: natDec p)).all (fun x => x != '+') = true :=
  coreStr_all M m p
    (fun c hc => by
      simp only [bne_iff_ne, ne_eq, decide_eq_true_eq]
      exact (isDigitC_ne_special hc).2.2.1)
    (by decide)

theorem coreStr_all_ne_dot (M : Nat) :
    (natDec M).all (fun x => x != '.') = true :=
  all_imp _ (natDec_all_digit M)
    (fun c hc => by
      simp only [bne_iff_ne, ne_eq, decide_eq_true_eq]
      exact (isDigitC_ne_special hc).1)

theorem vbody_eq_core_append (M m p : Nat) (pre bld : List Char) :
    vbody M m p pre bld
      = (natDec M ++ '.' :: (natDec m ++ '.' :: natDec p)) ++ (pre ++ bld) := by
  unfold vbody
  simp [List.append_assoc]

theorem takeWhile_core_minus (M m p : Nat) (pb bld : List Char) :
    (vbody M m p ('-' :: pb) bld).takeWhile (fun x => x != '-')
      = natDec M ++ '.' :: (natDec m ++ '.' :: natDec p) := by
  rw [vbody_eq_core_append,
    takeWhile_append_all _ _ (coreStr_all_ne_minus M m p)]
  simp [List.takeWhile_cons]

theorem splitCore (M m p : Nat) :
    splitOnChar '.' (natDec M ++ '.' :: (natDec m ++ '.' :: natDec p))
      = [natDec M, natDec m, natDec p] := by
  rw [splitOnChar_append '.' (natDec M) _ (coreStr_all_ne_dot M),
    splitOnChar_append '.' (natDec m) _ (coreStr_all_ne_dot m),
    splitOnChar_no_sep '.' (natDec p) (coreStr_all_ne_dot p)]

theorem coreOf_canonical (M m p : Nat) (pre bld : List Char)
    (hpre : pre = [] ∨ ∃ pb, pre = '-' :: pb)
    (hbld : bld = [] ∨ ∃ b, bld = '+' :: b) :
    (if bld ≠ [] then
        (splitOnChar '+'
          (if pre ≠ [] then (splitOnChar '-' (vbody M m p pre bld)).headI
           else vbody M m p pre bld)).headI
      else
        if pre ≠ [] then (splitOnChar '-' (vbody M m p pre bld)).headI
        else vbody M m p pre bld)
      = natDec M ++ '.' :: (natDec m ++ '.' :: natDec p) := by
  have hcore1 :
      (if pre ≠ [] then (splitOnChar '-' (vbody M m p pre bld)).headI
        else vbody M m p pre bld)
        = (natDec M ++ '.' :: (natDec m ++ '.' :: natDec p)) ++
            (if pre = [] then bld else []) := by
    rcases hpre with rfl | ⟨pb, rfl⟩
    · rw [if_neg (by simp), if_pos rfl, vbody_eq_core_append]
      simp
    · rw [if_pos (by simp), if_neg (by simp)]
      rw [splitOnChar_headI, takeWhile_core_minus]
      simp
  rw [hcore1]
  rcases hbld with rfl | ⟨b, rfl⟩
  · rw [if_neg (by simp)]
    rcases hpre with rfl | ⟨pb, rfl⟩ <;> simp
  · rw [if_pos (by simp), splitOnChar_headI]
    rcases hpre with rfl | ⟨pb, rfl⟩
    · rw [if_pos rfl,
        takeWhile_append_all _ _ (coreStr_all_ne_plus M m p)]
      simp [List.takeWhile_cons]
    · rw [if_neg (by simp), List.append_nil,
        takeWhile_all _ (coreStr_all_ne_plus M m p)]

theorem render_components (M m p : Nat) (pre bld pfx raw : List Char) :
    Version.render ⟨M, m, p, pre, bld, pfx, raw⟩ = pfx ++ vbody M m p pre bld := by
  unfold Version.render
  rw [vbody_eq_core_append]
  by_cases hpre : pre = [] <;> by_cases hbld : bld = [] <;>
    simp [hpre, hbld, List.append_assoc]

theorem parseVersion_canonical (pfx : List Char) (M m p : Nat)
    (pre bld : List Char) (hpfx : pfx = [] ∨ pfx = ['v'])
    (hp : ValidPreSuffix pre) (hb : ValidBuildSuffix bld) :
    ParseVersion (pfx ++ vbody M m p pre bld)
      = .ok ⟨M, m, p, pre, bld, pfx, pfx ++ vbody M m p pre bld⟩ := by
  have hsem := semParse_canonical M m p pre bld hp hb
  obtain ⟨cM, csM, hcM, hdM⟩ := natDec_head_digit M
  have hbh : (vbody M m p pre bld).head? = some cM := by
    unfold vbody
    rw [hcM]
    rfl
  have hbody_ne : vbody M m p pre bld ≠ [] := by
    intro hc
    rw [hc] at hbh
    exact absurd hbh (by simp)
  have hcMv : cM ≠ 'v' := (isDigitC_ne_special hdM).2.2.2
  have hsne : pfx ++ vbody M m p pre bld ≠ [] := by
    rcases hpfx with rfl | rfl <;> simp [hbody_ne]
  have hstrip : stripV (pfx ++ vbody M m p pre bld) = vbody M m p pre bld := by
    rcases hpfx with rfl | rfl
    · rw [List.nil_append, stripV, if_neg (by rw [hbh]; simp [hcMv])]
    · have hv : (['v'] ++ vbody M m p pre bld).head? = some 'v' := rfl
      rw [stripV, if_pos hv]
      rfl
  have hpfxOf : vPrefixOf (pfx ++ vbody M m p pre bld) = pfx := by
    rcases hpfx with rfl | rfl
    · rw [List.nil_append, vPrefixOf, if_neg (by rw [hbh]; simp [hcMv])]
    · have hv : (['v'] ++ vbody M m p pre bld).head? = some 'v' := rfl
      rw [vPrefixOf, if_pos hv]
  have hvalid : semIsValid ('v' :: vbody M m p pre bld) = true := by
    rw [semIsValid, hsem]
    rfl
  have hpre' : semPrerelease ('v' :: vbody M m p pre bld) = pre := by
    rw [semPrerelease, hsem]
    rfl
  have hbld' : semBuild ('v' :: vbody M m p pre bld) = bld := by
    rw [semBuild, hsem]
    rfl
  have hpre_shape : pre = [] ∨ ∃ pb, pre = '-' :: pb := by
    rcases hp with rfl | hp'
    · exact Or.inl rfl
    · obtain ⟨pb, rfl, -, -⟩ := parsePrereleaseSem_self_inv pre hp'
      exact Or.inr ⟨pb, rfl⟩
  have hbld_shape : bld = [] ∨ ∃ b, bld = '+' :: b := by
    rcases hb with rfl | hb'
    · exact Or.inl rfl
    · obtain ⟨b, rfl, -⟩ := parseBuildSem_self_inv bld hb'
      exact Or.inr ⟨b, rfl⟩
  simp only [ParseVersion, hsne, ite_false, hstrip, hvalid, if_true, hpre',
    hbld', hpfxOf]
  rw [coreOf_canonical M m p pre bld hpre_shape hbld_shape, splitCore M m p]
  simp only [List.getD, List.length_cons, List.length_nil, List.get?_eq_getElem?,
    List.getElem?_cons_zero, List.getElem?_cons_succ, Option.getD_some]
  norm_num [sscanfNat_natDec]

/-! ## Claim theorems -/

/-- Claim C4: applying a `None` bump through `CalculateNextVersion`
returns the current version itself, every field (prerelease, build and
raw included) unchanged. -/
theorem calculateNextVersion_none_id (v : Version) :
    CalculateNextVersion v .none = v ∧
      (CalculateNextVersion v .none).prerelease = v.prerelease ∧
      (CalculateNextVersion v .none).build = v.build := by
  simp [CalculateNextVersion]

theorem calculateBumpTypeGo_of_breaking (cs : List ConventionalCommit)
    (h : ∃ c ∈ cs, c.isBreakingChange = true) :
    ∀ acc, calculateBumpTypeGo cs acc = .major := by
  induction cs with
  | nil => rcases h with ⟨c, hc, _⟩; exact absurd hc (List.not_mem_nil c)
  | cons c rest ih =>
    intro acc
    rcases h with ⟨d, hd, hb⟩
    by_cases hcb : c.isBreakingChange = true
    · simp [calculateBumpTypeGo, hcb]
    · have hdr : d ∈ rest := by
        rcases List.mem_cons.mp hd with rfl | h'
        · exact absurd hb hcb
        · exact h'
      simp only [calculateBumpTypeGo, Bool.not_eq_true] at hcb ⊢
      rw [hcb]
      simpa using ih ⟨d, hdr, hb⟩ (bumpStep acc c)

/-- Claim C7: a commit list containing any breaking commit resolves to a
`Major` bump, whatever the configuration and the other commits are. -/
theorem calculateBumpType_major_of_breaking (cfg : Config)
    (cs : List ConventionalCommit) (h : ∃ c ∈ cs, c.isBreakingChange = true) :
    CalculateBumpType cfg cs = .major :=
  calculateBumpTypeGo_of_breaking cs h .none

/-- Witness for C7 at a concrete breaking commit among non-breaking
ones. -/
theorem calculateBumpType_major_of_breaking_witness :
    CalculateBumpType defaultConfig
      [⟨"fix".data, [], "a".data, [], false, [], ⟨[], [], []⟩⟩,
       ⟨"other".data, [], "b".data, [], true, [], ⟨[], [], []⟩⟩] = .major :=
  calculateBumpType_major_of_breaking defaultConfig _
    ⟨⟨"other".data, [], "b".data, [], true, [], ⟨[], [], []⟩⟩,
     by simp, rfl⟩

/-- Claim C3: a classified commit is marked breaking exactly when the
subject contains the literal substring `"!:"` anywhere, or the combined
`subject + "\n" + body` contains one of the configured breaking-change
keywords. -/
theorem parseCommit_breaking_iff (cfg : Config) (c : GitCommit) :
    (ParseCommit cfg c).isBreakingChange = true ↔
      ("!:".data <:+: c.subject ∨
        ∃ kw ∈ cfg.commits.breakingChangeKeywords,
          kw <:+: (c.subject ++ '\n' :: c.body)) := by
  show hasBreakingChange cfg c = true ↔ _
  simp [hasBreakingChange, containsSub_correct, List.any_eq_true]

/-- Counterexample to claim C9 as stated: at the negative iteration `-1`
the code still produces the bare `-label` prerelease, not
`-label.iteration` as the claim's "otherwise" branch requires. -/
theorem createPrerelease_negative_iteration :
    (CreatePrereleaseVersion ⟨1, 2, 3, [], [], ['v'], []⟩ "alpha".data (-1)).prerelease
        = "-alpha".data ∧
      (CreatePrereleaseVersion ⟨1, 2, 3, [], [], ['v'], []⟩ "alpha".data (-1)).prerelease
        ≠ '-' :: "alpha".data ++ '.' :: intDec (-1) := by
  have hpre :
      (CreatePrereleaseVersion ⟨1, 2, 3, [], [], ['v'], []⟩ "alpha".data (-1)).prerelease
        = "-alpha".data := by
    simp [CreatePrereleaseVersion]
  refine ⟨hpre, ?_⟩
  rw [hpre]
  intro h
  have := congrArg List.length h
  simp [intDec, natDec] at this

/-- Claim C9 as amended: `createPrerelease` preserves major, minor,
patch, build and prefix, and sets the prerelease to `-label.iteration`
when `iteration > 0` and to the bare `-label` otherwise (so also for
negative iterations, not only for zero). -/
theorem createPrerelease_fields (base : Version) (label : List Char)
    (iteration : Int) :
    (CreatePrereleaseVersion base label iteration).major = base.major ∧
      (CreatePrereleaseVersion base label iteration).minor = base.minor ∧
      (CreatePrereleaseVersion base label iteration).patch = base.patch ∧
      (CreatePrereleaseVersion base label iteration).build = base.build ∧
      (CreatePrereleaseVersion base label iteration).pfx = base.pfx ∧
      (CreatePrereleaseVersion base label iteration).prerelease =
        (if iteration > 0 then '-' :: label ++ '.' :: intDec iteration
         else '-' :: label) := by
  by_cases h : iteration > 0 <;> simp [CreatePrereleaseVersion, h]

/-- Claim C2 fails on the code: `CalculateBumpType` never consults the
configured severity.  With `docs` configured at severity `minor` (a
configuration the config file documentation explicitly allows), a single
non-breaking `docs` commit yields `None` from the code while the
configured-severity maximum demanded by the claim is `Minor`. -/
theorem calculateBumpType_ignores_configured_severity :
    CalculateBumpType
        ⟨⟨[("docs".data, ⟨"Documentation".data, "minor".data⟩)], []⟩⟩
        [⟨"docs".data, [], "d".data, [], false, [], ⟨[], [], []⟩⟩] = .none ∧
      specSeverityOf
        ⟨⟨[("docs".data, ⟨"Documentation".data, "minor".data⟩)], []⟩⟩
        "docs".data = .minor ∧
      specResolveBumpNonBreaking
        ⟨⟨[("docs".data, ⟨"Documentation".data, "minor".data⟩)], []⟩⟩
        [⟨"docs".data, [], "d".data, [], false, [], ⟨[], [], []⟩⟩] = .minor ∧
      (⟨"docs".data, [], "d".data, [], false, [], ⟨[], [], []⟩⟩
        : ConventionalCommit).isBreakingChange = false := by
  refine ⟨rfl, ?_, ?_, rfl⟩ <;> decide

/-- Claim C5 fails on the code: the section order emitted by
`SortCommitsByType` depends on the enumeration order of the grouping's
key set.  The key sets `{ci, build}` enumerated in its two possible
orders (both orders arise from `range` over the same Go map, whose
iteration order is randomised between runs) produce different section
orders. -/
theorem sortCommitsByType_depends_on_iteration_order :
    SortCommitsByType ["ci".data, "build".data] = ["ci".data, "build".data] ∧
      SortCommitsByType ["build".data, "ci".data] = ["build".data, "ci".data] ∧
      SortCommitsByType ["ci".data, "build".data]
        ≠ SortCommitsByType ["build".data, "ci".data] ∧
      (["ci".data, "build".data] : List (List Char)).Perm
        ["build".data, "ci".data] := by
  refine ⟨rfl, rfl, by decide, ?_⟩
  exact List.Perm.swap _ _ _

set_option maxRecDepth 8000 in
/-- Claim C1 fails on the code: merging a new section into a document
produced by a previous merge discards the `# Changelog` header block and
does not re-synthesise it (the header is only added when the existing
text lacks it), so the result contains zero occurrences of the header,
not exactly one.  The prior release section does follow the new one. -/
theorem mergeIntoDocument_drops_header :
    containsSub (mergeIntoDocument [] ("## [0.1.0] - 2024-01-01\n\n").data)
        changelogMarker = true ∧
      mergeIntoDocument (mergeIntoDocument [] ("## [0.1.0] - 2024-01-01\n\n").data)
          ("## [0.2.0] - 2024-01-02\n\n").data
        = ("## [0.2.0] - 2024-01-02\n\n").data ++ ("## [0.1.0] - 2024-01-01\n\n").data ∧
      containsSub
          (mergeIntoDocument (mergeIntoDocument [] ("## [0.1.0] - 2024-01-01\n\n").data)
            ("## [0.2.0] - 2024-01-02\n\n").data)
          changelogMarker = false := by
  refine ⟨rfl, by rfl, rfl⟩

/-- Claim C6: for every canonically formatted `major.minor.patch` version
string (optional `v` prefix, canonical decimal numerals, optional
well-formed `-prerelease` / `+build` suffixes — i.e. no redundant
formatting), parsing succeeds and rendering the parsed version returns
the input string exactly. -/
theorem parseVersion_render_roundtrip (s : List Char)
    (h : CanonicalVersionString s) :
    ∃ v, ParseVersion s = .ok v ∧ Version.render v = s := by
  obtain ⟨pfx, M, m, p, pre, bld, hpfx, hp, hb, rfl⟩ := h
  exact ⟨⟨M, m, p, pre, bld, pfx, pfx ++ vbody M m p pre bld⟩,
    parseVersion_canonical pfx M m p pre bld hpfx hp hb,
    render_components M m p pre bld pfx _⟩

/-- Witness for C6 at the spec's own scenario string
`"v1.2.3-rc.1+build5"`. -/
theorem parseVersion_render_roundtrip_witness :
    CanonicalVersionString ("v1.2.3-rc.1+build5").data ∧
      ∃ v, ParseVersion ("v1.2.3-rc.1+build5").data = .ok v ∧
        Version.render v = ("v1.2.3-rc.1+build5").data := by
  have hc : CanonicalVersionString ("v1.2.3-rc.1+build5").data := by
    refine ⟨['v'], 1, 2, 3, "-rc.1".data, "+build5".data, Or.inr rfl,
      Or.inr (by decide), Or.inr (by decide), ?_⟩
    unfold vbody
    rw [natDec_lt10 1 (by norm_num), natDec_lt10 2 (by norm_num),
      natDec_lt10 3 (by norm_num)]
    rfl
  exact ⟨hc, parseVersion_render_roundtrip _ hc⟩

/-- Counterexample to claim C8 as stated: `"1.2"` does not have a
three-component `major.minor.patch` core, so under the claim's grammar it
should be rejected as `InvalidVersion`; the code accepts it (the
underlying library's grammar allows an omitted patch component, which the
parser then zero-fills). -/
theorem parseVersion_accepts_two_component_core :
    ParseVersion "1.2".data = .ok ⟨1, 2, 0, [], [], [], "1.2".data⟩ ∧
      (splitOnChar '.' "1.2".data).length ≠ 3 :=
  ⟨rfl, by decide⟩

/-- Claim C8 as amended: the empty input gives the distinct
`EmptyVersion` error; a non-empty input gives `InvalidVersion` exactly
when `"v" + input-without-its-optional-v` fails the underlying library's
(lenient) semantic-version grammar, which also admits cores with an
omitted minor or patch component; a grammatical input without the
optional `v` prefix succeeds with an empty recorded prefix. -/
theorem parseVersion_error_taxonomy :
    ParseVersion [] = .error .emptyVersion ∧
      (∀ s : List Char, s ≠ [] →
        (ParseVersion s = .error .invalidVersion ↔
          semIsValid ('v' :: stripV s) = false)) ∧
      (∀ s : List Char, s ≠ [] → s.head? ≠ some 'v' →
        semIsValid ('v' :: s) = true →
        ∃ v, ParseVersion s = .ok v ∧ v.pfx = []) := by
  refine ⟨rfl, ?_, ?_⟩
  · intro s hs
    rw [ParseVersion]
    by_cases hv : semIsValid ('v' :: stripV s) = true
    · simp [hs, hv]
    · simp only [Bool.not_eq_true] at hv
      simp [hs, hv]
  · intro s hs hv hvalid
    have hstrip : stripV s = s := by simp [stripV, hv]
    simp only [ParseVersion, hs, ite_false, hstrip, hvalid, if_true]
    refine ⟨_, rfl, ?_⟩
    simp [vPrefixOf, hv]

/-- Witness for the amended C8 at a malformed input and at a well-formed
input without a prefix. -/
theorem parseVersion_error_taxonomy_witness :
    (ParseVersion "abc".data = .error .invalidVersion ↔
        semIsValid ('v' :: stripV "abc".data) = false) ∧
      ∃ v, ParseVersion "1.0.0".data = .ok v ∧ v.pfx = [] :=
  ⟨parseVersion_error_taxonomy.2.1 "abc".data (by decide),
   parseVersion_error_taxonomy.2.2 "1.0.0".data (by decide) (by decide) (by decide)⟩

theorem matchConventional_bang (ty rest : List Char) (hty : ty ≠ [])
    (hw : ty.all isWordChar = true) :
    matchConventional (ty ++ '!' :: rest) = Option.none := by
  unfold matchConventional
  rw [takeWhile_append_all ty ('!' :: rest) hw,
    dropWhile_append_all ty ('!' :: rest) hw]
  have h1 : isWordChar '!' = false := by decide
  simp only [List.takeWhile_cons, h1, Bool.false_eq_true, if_false,
    List.dropWhile_cons, List.append_nil, hty, ite_false]
  split
  · rename_i heq; simp at heq
  · rename_i heq; simp at heq
  · rfl

theorem matchConventional_scope_bang (ty sc rest : List Char) (hty : ty ≠ [])
    (hw : ty.all isWordChar = true) (hsc : sc ≠ [])
    (hscc : sc.all (fun c => c != ')') = true) :
    matchConventional (ty ++ '(' :: (sc ++ ')' :: '!' :: rest)) = Option.none := by
  unfold matchConventional
  rw [takeWhile_append_all ty ('(' :: (sc ++ ')' :: '!' :: rest)) hw,
    dropWhile_append_all ty ('(' :: (sc ++ ')' :: '!' :: rest)) hw]
  have h1 : isWordChar '(' = false := by decide
  simp only [List.takeWhile_cons, h1, Bool.false_eq_true, if_false,
    List.dropWhile_cons, List.append_nil, hty, ite_false]
  rw [takeWhile_append_all sc (')' :: '!' :: rest) hscc,
    dropWhile_append_all sc (')' :: '!' :: rest) hscc]
  have h2 : ((')' : Char) != ')') = false := by decide
  simp only [List.takeWhile_cons, h2, Bool.false_eq_true, if_false,
    List.dropWhile_cons, List.append_nil, hsc, ite_false]
  rfl

theorem breaking_marker_present (l r : List Char) :
    "!:".data <:+: l ++ '!' :: ':' :: r :=
  ⟨l, r, by simp⟩

/-- Claim C10: a subject of the form `type!: description` or
`type(scope)!: description` does not match the conventional-commit
pattern (the `'!'` sits between the type or closing parenthesis and the
required `": "`), so the classified commit gets the sentinel type
`"other"` with the whole subject as its description, while still being
marked breaking by the `"!:"` substring rule.  Grouping keys on the type
field, so such commits land under `"other"`. -/
theorem parseCommit_bang_subject_falls_to_other (cfg : Config)
    (ty sc desc body hash : List Char) (hty : ty ≠ [])
    (hw : ty.all isWordChar = true) (hsc : sc ≠ [])
    (hscc : sc.all (fun c => c != ')') = true) :
    ((ParseCommit cfg ⟨hash, ty ++ '!' :: ':' :: ' ' :: desc, body⟩).type
        = "other".data ∧
      (ParseCommit cfg ⟨hash, ty ++ '!' :: ':' :: ' ' :: desc, body⟩).description
        = ty ++ '!' :: ':' :: ' ' :: desc ∧
      (ParseCommit cfg ⟨hash, ty ++ '!' :: ':' :: ' ' :: desc, body⟩).isBreakingChange
        = true) ∧
      ((ParseCommit cfg ⟨hash, ty ++ '(' :: (sc ++ ')' :: '!' :: ':' :: ' ' :: desc), body⟩).type
          = "other".data ∧
        (ParseCommit cfg ⟨hash, ty ++ '(' :: (sc ++ ')' :: '!' :: ':' :: ' ' :: desc), body⟩).description
          = ty ++ '(' :: (sc ++ ')' :: '!' :: ':' :: ' ' :: desc) ∧
        (ParseCommit cfg ⟨hash, ty ++ '(' :: (sc ++ ')' :: '!' :: ':' :: ' ' :: desc), body⟩).isBreakingChange
          = true) := by
  constructor
  · have hm := matchConventional_bang ty (':' :: ' ' :: desc) hty hw
    refine ⟨by simp [ParseCommit, hm], by simp [ParseCommit, hm], ?_⟩
    show hasBreakingChange cfg _ = true
    simp only [hasBreakingChange, Bool.or_eq_true]
    exact Or.inl ((containsSub_correct _ _).mpr (breaking_marker_present ty (' ' :: desc)))
  · have hm := matchConventional_scope_bang ty sc (':' :: ' ' :: desc) hty hw hsc hscc
    refine ⟨by simp [ParseCommit, hm], by simp [ParseCommit, hm], ?_⟩
    show hasBreakingChange cfg _ = true
    simp only [hasBreakingChange, Bool.or_eq_true]
    refine Or.inl ((containsSub_correct _ _).mpr ?_)
    have : ty ++ '(' :: (sc ++ ')' :: '!' :: ':' :: ' ' :: desc)
        = (ty ++ '(' :: sc ++ [')']) ++ '!' :: ':' :: (' ' :: desc) := by simp
    rw [this]
    exact breaking_marker_present _ _

/-- Witness for C10 at the concrete subjects `feat!: remove` and
`feat(api)!: remove`. -/
theorem parseCommit_bang_subject_falls_to_other_witness :
    (ParseCommit defaultConfig ⟨[], "feat!: remove".data, []⟩).type = "other".data ∧
      (ParseCommit defaultConfig ⟨[], "feat(api)!: remove".data, []⟩).type
        = "other".data := by
  have h := parseCommit_bang_subject_falls_to_other defaultConfig
    "feat".data "api".data "remove".data [] [] (by decide) (by decide)
    (by decide) (by decide)
  exact ⟨h.1.1, h.2.1⟩

end Herald
